import Mathlib

/-!
Verification of the fuzzy-matching core of the taxonomy audit application.

The development embeds, as executable Lean definitions:
* the rapidfuzz similarity machinery used by the matcher
  (`fuzz.token_sort_ratio` over `rapidfuzz.utils.default_process`-normalized
  names, and `process.extractOne`),
* `find_match` and `matcher` from `src/utils/analysis.py`,
* the `preprocess` name-normalization entry point of
  `src/utils/data_processing.py` for event tables,
* the candidate-pool assembly of `src/main.py` (`run_data_processing`,
  lines 284-302), and
* the control flow of the per-project driver loop of `run_data_processing`.

Missing values (`pd.NA` / float NaN) are modelled with `Option`; pandas
`Series.max` (skipna) and the element-wise `!=` comparison (under which NaN
is unequal to everything, including NaN) are modelled explicitly.
-/

/-- Whitespace test used when splitting a name into tokens; mirrors the
whitespace notion of Python `str.split()` for the characters that can occur
in preprocessed names. -/
def isWs (c : Char) : Bool := c.isWhitespace

/-- Helper for `splitWs`: accumulates the current (reversed) token. -/
def splitWsAux : List Char → List Char → List (List Char)
  | [], cur => if cur.isEmpty then [] else [cur.reverse]
  | c :: cs, cur =>
    if isWs c then
      if cur.isEmpty then splitWsAux cs [] else cur.reverse :: splitWsAux cs []
    else splitWsAux cs (c :: cur)

/-- Split a character list into maximal whitespace-free tokens, dropping
empty pieces; models Python `str.split()` with no separator argument. -/
def splitWs (l : List Char) : List (List Char) := splitWsAux l []

/-- Lexicographic token comparison by character code point, as Python
`sorted` compares strings. -/
def lexLe : List Char → List Char → Bool
  | [], _ => true
  | _ :: _, [] => false
  | a :: as, b :: bs =>
    if a.val < b.val then true
    else if b.val < a.val then false
    else lexLe as bs

/-- Insert a token into an already sorted token list. -/
def insertTok (x : List Char) : List (List Char) → List (List Char)
  | [] => [x]
  | y :: ys => if lexLe x y then x :: y :: ys else y :: insertTok x ys

/-- Sort the token list (Python `sorted`). -/
def sortToks : List (List Char) → List (List Char)
  | [] => []
  | x :: xs => insertTok x (sortToks xs)

/-- Join tokens with single spaces, as `" ".join` inside
`fuzz.token_sort_ratio`. -/
def joinSp : List (List Char) → List Char
  | [] => []
  | [x] => x
  | x :: y :: ys => x ++ ' ' :: joinSp (y :: ys)

/-- Fuelled form of the textbook longest-common-subsequence recurrence
(structural on the fuel so that it evaluates inside the kernel). -/
def lcsFuel : Nat → List Char → List Char → Nat
  | 0, _, _ => 0
  | _ + 1, [], _ => 0
  | _ + 1, _ :: _, [] => 0
  | fuel + 1, a :: as, b :: bs =>
    if a = b then lcsFuel fuel as bs + 1
    else max (lcsFuel fuel (a :: as) bs) (lcsFuel fuel as (b :: bs))

/-- Length of a longest common subsequence of two character lists; the fuel
`|as| + |bs|` dominates the recursion depth of the recurrence. -/
def lcsLen (as bs : List Char) : Nat := lcsFuel (as.length + bs.length) as bs

/-- Normalized InDel similarity in [0,100]; models `rapidfuzz.fuzz.ratio`.
The InDel distance of `a` and `b` is `|a| + |b| - 2 * lcs a b`; the
similarity of two empty strings is 100, as in rapidfuzz. -/
def indelSim (a b : List Char) : ℚ :=
  let n := a.length + b.length
  if n = 0 then 100
  else 100 * (1 - ((n - 2 * lcsLen a b : ℕ) : ℚ) / (n : ℚ))

/-- The token-sorted form of a string: split on whitespace, sort the
tokens, rejoin with single spaces. -/
def tokenSortKey (s : String) : List Char := joinSp (sortToks (splitWs s.data))

/-- Models `rapidfuzz.fuzz.token_sort_ratio`: the InDel similarity of the
token-sorted forms of the two strings. -/
def tokenSortSim (a b : String) : ℚ := indelSim (tokenSortKey a) (tokenSortKey b)

/-- Condition under which the `extractOne` scan replaces its current best
candidate: the new score reaches the cutoff and strictly exceeds the score
of the current best (so among equal scores the first candidate is kept). -/
def better (cutoff sc : ℚ) (best : Option (String × ℚ × Nat)) : Bool :=
  decide (cutoff ≤ sc) &&
    (match best with
     | none => true
     | some b => decide (b.2.1 < sc))

/-- The scan of `rapidfuzz.process.extractOne` over the list of choices,
carrying the position `i` of the head of the remaining list and the best
accepted candidate so far. None-like (NaN) choices are skipped. -/
def scanBest (q : String) (cutoff : ℚ) :
    List (Option String) → Nat → Option (String × ℚ × Nat) → Option (String × ℚ × Nat)
  | [], _, best => best
  | none :: cs, i, best => scanBest q cutoff cs (i + 1) best
  | some s :: cs, i, best =>
    scanBest q cutoff cs (i + 1)
      (if better cutoff (tokenSortSim q s) best then some (s, tokenSortSim q s, i) else best)

/-- Models `rapidfuzz.process.extractOne(query, choices,
scorer=fuzz.token_sort_ratio, score_cutoff=cutoff)`: returns
`(best_match, score, index into choices)` for the first choice attaining
the highest score, provided that score is at least the cutoff, and `none`
otherwise. A None-like query yields `none`; None-like choices are skipped
(rapidfuzz treats `None`, float NaN and `pandas.NA` alike). -/
def extractOne (query : Option String) (choices : List (Option String)) (cutoff : ℚ) :
    Option (String × ℚ × Nat) :=
  match query with
  | none => none
  | some q => scanBest q cutoff choices 0 none

/-- One row of the `comp_list` frame used by `matcher`: the
`orig_idx_col` value, the `names_col` value (the preprocessed name) and the
`Category` value. `Option` models missing values. -/
structure CompRow where
  origIdx : Option ℤ
  name : Option String
  category : String
deriving DecidableEq, Repr

/-- Pandas element-wise `!=` on the index column: NaN compares unequal to
everything, including NaN itself. -/
def pandasNe (a b : Option ℤ) : Bool :=
  match a, b with
  | some x, some y => decide (x ≠ y)
  | _, _ => true

/-- The filtered frame `comp_list[comp_list[orig_idx_col] != idx]` of
`find_match`. -/
def comparisonList (idx : Option ℤ) (compList : List CompRow) : List CompRow :=
  compList.filter (fun r => pandasNe r.origIdx idx)

/-- Shallow embedding of `find_match` (src/utils/analysis.py, lines 15-40).
Excludes rows whose original index equals `idx`, runs `extractOne` over the
remaining names with `score_cutoff=threshold`, re-checks the score against
the threshold as the source does, and maps the returned position back into
the comparison list (`iloc`) to read off the matched row's original index
and category. Returns `none` for the all-NA "no match" tuple. The inner
`none` arm of the `iloc` lookup models the out-of-range case, which is
proved unreachable below (`extractOne` only returns positions of actual
choices). -/
def find_match (name : Option String) (idx : Option ℤ) (compList : List CompRow) (threshold : ℚ) :
    Option (String × ℚ × Option ℤ × String) :=
  let comparison := comparisonList idx compList
  let choices := comparison.map (fun r => r.name)
  match extractOne name choices threshold with
  | none => none
  | some (bm, score, j) =>
    if threshold ≤ score then
      match comparison[j]? with
      | some row => some (bm, score, row.origIdx, row.category)
      | none => none
    else none

/-- One row of the frame handed to `matcher`: the comparison columns plus
the human-facing label column (for events, `Object Name` /
`Event Display Name`), which the matcher itself never reads. -/
structure DfRow where
  origIdx : Option ℤ
  name : Option String
  category : String
  displayName : Option String
deriving DecidableEq, Repr

/-- Projection of a frame row to the three columns of `comp_list`. -/
def compOf (r : DfRow) : CompRow := ⟨r.origIdx, r.name, r.category⟩

/-- Round half to even at integer precision, the rounding used by
pandas/numpy `Series.round`. -/
def rndHalfEven (q : ℚ) : ℤ :=
  if q - ⌊q⌋ < 1 / 2 then ⌊q⌋
  else if 1 / 2 < q - ⌊q⌋ then ⌊q⌋ + 1
  else if 2 ∣ ⌊q⌋ then ⌊q⌋ else ⌊q⌋ + 1

/-- Round a rational to two decimal places (pandas `Series.round(2)`). -/
def round2 (q : ℚ) : ℚ := (rndHalfEven (q * 100) : ℚ) / 100

/-- The four match columns `matcher` adds to the frame. The inner
`Option ℤ` of `matchIndex` is the matched row's (possibly NaN) original
index; the outer `Option` is the all-NA "no match" case. -/
structure MatchCols where
  matchFound : Option String
  matchScore : ℚ
  matchIndex : Option (Option ℤ)
  matchCategory : Option String
deriving DecidableEq, Repr

/-- Shallow embedding of `matcher` (src/utils/analysis.py, lines 43-73):
build `comp_list` from the whole frame, apply `find_match` to every row,
then post-process the score column with `pd.to_numeric` (scores are already
numeric), `fillna(0)` and `round(2)`. The column-wise post-processing is
element-wise, so it is applied here inside the per-row map. -/
def matcher (df : List DfRow) (threshold : ℚ) : List (DfRow × MatchCols) :=
  let compList := df.map compOf
  df.map (fun r =>
    match find_match r.name r.origIdx compList threshold with
    | none => (r, ⟨none, 0, none, none⟩)
    | some (n, s, oi, c) => (r, ⟨some n, round2 s, some oi, some c⟩))

/-- Strip leading and trailing whitespace from a character list. -/
def stripWs (l : List Char) : List Char :=
  ((l.dropWhile isWs).reverse.dropWhile isWs).reverse

/-- Models `rapidfuzz.utils.default_process`, which `preprocess` applies to
every source name: replace every non-alphanumeric character by a space,
lowercase, and strip leading/trailing whitespace. -/
def default_process (s : String) : String :=
  ⟨stripWs (s.data.map (fun c => if c.isAlphanum then c.toLower else ' '))⟩

/-- One event row of the table handed to `preprocess(df, 'event')`:
the `Object Name` value and the (possibly missing) `Event Display Name`
value. -/
structure RawEventRow where
  objectName : String
  displayName : Option String
deriving DecidableEq, Repr

/-- The source name of an event row as computed by `preprocess`: the
display name with empty strings replaced by NA, falling back to the object
name (`combine_first`). -/
def eventSourceName (r : RawEventRow) : String :=
  match (if r.displayName = some "" then none else r.displayName) with
  | some d => d
  | none => r.objectName

/-- Shallow embedding of the name-normalization of
`preprocess(df, table_type='event')` (src/utils/data_processing.py, lines
214-236), restricted to the `Preprocessed Name` column it produces: when
the name columns are present, each row's preprocessed name is
`default_process` of the display name falling back to the object name;
when a required source column is absent, the function only warns and sets
every row's `Preprocessed Name` to NA. -/
def preprocessEvent (hasCols : Bool) (rows : List RawEventRow) : List (Option String) :=
  if hasCols then rows.map (fun r => some (default_process (eventSourceName r)))
  else rows.map (fun _ => none)

/-- One row of a sub-pool frame before the Pool Builder tags it: its
preprocessed name and its human-facing label. -/
structure SrcRow where
  name : Option String
  displayName : Option String
deriving DecidableEq, Repr

/-- One row of the combined candidate pool. -/
structure PoolRow where
  origIdx : Option ℤ
  name : Option String
  category : String
  displayName : Option String
deriving DecidableEq, Repr

/-- One step of the pandas `Series.max` fold: NaN (`none`) entries are
ignored. -/
def maxStep (acc x : Option ℤ) : Option ℤ :=
  match acc, x with
  | none, v => v
  | some m, none => some m
  | some m, some v => some (max m v)

/-- Pandas `Series.max` with its default `skipna=True` over the
`Orig Index` column: NaN entries are ignored and an empty or all-NaN
column yields NaN. -/
def seriesMax (l : List (Option ℤ)) : Option ℤ :=
  l.foldl maxStep none

/-- The index arithmetic `df.index + max + 1` of the Pool Builder, with
NaN propagation: adding anything to NaN is NaN. -/
def shiftIdx (i : ℕ) (m : Option ℤ) : Option ℤ :=
  match m with
  | some v => some ((i : ℤ) + v + 1)
  | none => none

/-- Shallow embedding of the candidate-pool assembly of
`run_data_processing` (src/main.py, lines 284-302): events are tagged
`Event` with `Orig Index` equal to their positional index; deduplicated
event properties are tagged `Event Property` with index
`position + events index max + 1`; user properties, included only when the
user-properties frame exists and is non-empty, are tagged `User Property`
with index `position + event-property index max + 1`; the frames are then
concatenated. The events and event-properties frames are always part of
the concatenation. -/
def buildPool (events dedup : List SrcRow) (userProps : Option (List SrcRow)) : List PoolRow :=
  let ev := events.enum.map (fun p => PoolRow.mk (some (p.1 : ℤ)) p.2.name "Event" p.2.displayName)
  let evMax := seriesMax (ev.map (fun r => r.origIdx))
  let dd := dedup.enum.map
    (fun p => PoolRow.mk (shiftIdx p.1 evMax) p.2.name "Event Property" p.2.displayName)
  let ddMax := seriesMax (dd.map (fun r => r.origIdx))
  match userProps with
  | none => ev ++ dd
  | some us =>
    if us.isEmpty then ev ++ dd
    else
      ev ++ dd ++ us.enum.map
        (fun p => PoolRow.mk (shiftIdx p.1 ddMax) p.2.name "User Property" p.2.displayName)

/-- Per-project control-flow flags for one iteration of the driver loop of
`run_data_processing` (src/main.py, lines 166-474): whether loading the
project's data fails (the loop `continue`s), whether the events-level
`matcher` call at line 206 raises (that call precedes the per-project
`try`), and whether an exception is raised inside the per-project `try`
block at the combined `matcher` call (line 305, before the matched frames
are assigned). -/
structure Proj where
  loadFails : Bool
  eventsMatcherRaises : Bool
  reportsRaise : Bool
deriving DecidableEq, Repr

/-- Shallow embedding of the driver loop of `run_data_processing`.
The boolean argument records whether a previous project completed its
report block, so that the post-block aggregation assignments (line 457
onward) can read the variables that block defines. Returns `none` when an
uncaught exception reaches the top-level handler of `run_data_processing`
(the whole run aborts and the remaining projects are not processed), and
otherwise `some` list pairing each processed project with whether its
reports were generated. An exception at the events-level `matcher` call is
uncaught; an exception inside the `try` block is caught and printed, but
the subsequent aggregation assignments then raise `NameError` unless a
previous project defined the matched-frame variables. -/
def processProjects : List Proj → Bool → Option (List (Proj × Bool))
  | [], _ => some []
  | p :: ps, prev =>
    if p.loadFails then processProjects ps prev
    else if p.eventsMatcherRaises then none
    else if p.reportsRaise then
      if prev then (processProjects ps true).map (fun l => (p, false) :: l)
      else none
    else (processProjects ps true).map (fun l => (p, true) :: l)

/-- Invariant of the `extractOne` scan over the prefix `seen` of the
choices already examined: a `none` result means every (non-NaN) choice seen
so far scores below the cutoff; a `some (n, s, j)` result points at
position `j` of the prefix, carries that choice's score, which reaches the
cutoff, is an upper bound of all scores seen, and strictly exceeds the
score of every earlier choice. -/
def scanInv (q : String) (cutoff : ℚ) (seen : List (Option String))
    (r : Option (String × ℚ × Nat)) : Prop :=
  (r = none → ∀ (k : Nat) (m : String), seen[k]? = some (some m) → tokenSortSim q m < cutoff) ∧
  (∀ (n : String) (s : ℚ) (j : Nat), r = some (n, s, j) →
    seen[j]? = some (some n) ∧ s = tokenSortSim q n ∧ cutoff ≤ s ∧
    (∀ (k : Nat) (m : String), seen[k]? = some (some m) → tokenSortSim q m ≤ s) ∧
    (∀ (k : Nat) (m : String), k < j → seen[k]? = some (some m) → tokenSortSim q m < s))

/-- Case split for indexing into a list extended by one element. -/
lemma getElem?_concat_cases {α : Type} {l : List α} {c a : α} {k : Nat}
    (h : (l ++ [c])[k]? = some a) : l[k]? = some a ∨ (k = l.length ∧ a = c) := by
  rcases lt_trichotomy k l.length with hk | hk | hk
  · left
    rw [List.getElem?_append_left hk] at h
    exact h
  · right
    subst hk
    rw [List.getElem?_concat_length] at h
    exact ⟨rfl, (Option.some.injEq _ _).mp h.symm⟩
  · exfalso
    have hlen : (l ++ [c]).length ≤ k := by
      simpa [List.length_append] using hk
    rw [List.getElem?_eq_none hlen] at h
    cases h

/-- With enough fuel, the LCS of a list with itself is its length. -/
lemma lcsFuel_self : ∀ (a : List Char) (f : Nat), 2 * a.length ≤ f → lcsFuel f a a = a.length := by
  intro a
  induction a with
  | nil =>
    intro f _
    cases f <;> simp [lcsFuel]
  | cons c cs ih =>
    intro f hf
    have : ∃ g, f = g + 1 := by
      refine ⟨f - 1, ?_⟩
      simp at hf
      omega
    obtain ⟨g, rfl⟩ := this
    have hg : 2 * cs.length ≤ g := by
      simp [List.length_cons] at hf
      omega
    simp [lcsFuel, ih g hg]

/-- The LCS of a list with itself is its length. -/
lemma lcsLen_self (a : List Char) : lcsLen a a = a.length :=
  lcsFuel_self a (a.length + a.length) (by omega)

/-- The InDel similarity of a list with itself is 100. -/
lemma indelSim_self (a : List Char) : indelSim a a = 100 := by
  unfold indelSim
  rcases Nat.eq_zero_or_pos a.length with h0 | hpos
  · simp [h0]
  · have hne : a.length + a.length ≠ 0 := by omega
    have hd : a.length + a.length - 2 * lcsLen a a = 0 := by
      rw [lcsLen_self]
      omega
    simp [hne, hd]

/-- The token-sort similarity of a string with itself is 100. -/
lemma tokenSortSim_self (s : String) : tokenSortSim s s = 100 :=
  indelSim_self _

/-- The InDel similarity always lies in [0, 100]. -/
lemma indelSim_bounds (a b : List Char) : 0 ≤ indelSim a b ∧ indelSim a b ≤ 100 := by
  unfold indelSim
  rcases Nat.eq_zero_or_pos (a.length + b.length) with h0 | hpos
  · simp [h0]
  · have hne : a.length + b.length ≠ 0 := by omega
    simp only [hne, if_false]
    set d : ℕ := a.length + b.length - 2 * lcsLen a b with hd
    have hdn : d ≤ a.length + b.length := Nat.sub_le _ _
    have hq0 : (0 : ℚ) < ((a.length + b.length : ℕ) : ℚ) := by exact_mod_cast hpos
    have h1 : ((d : ℕ) : ℚ) / ((a.length + b.length : ℕ) : ℚ) ≤ 1 := by
      rw [div_le_one hq0]
      exact_mod_cast hdn
    have h2 : (0 : ℚ) ≤ ((d : ℕ) : ℚ) / ((a.length + b.length : ℕ) : ℚ) := by positivity
    constructor
    · push_cast at h1 h2 ⊢
      nlinarith
    · push_cast at h1 h2 ⊢
      nlinarith

/-- The token-sort similarity always lies in [0, 100]. -/
lemma tokenSortSim_bounds (a b : String) : 0 ≤ tokenSortSim a b ∧ tokenSortSim a b ≤ 100 :=
  indelSim_bounds _ _

/-- The scan invariant is preserved when the examined prefix grows by a
skipped None-like choice. -/
lemma scanInv_extend_none {q : String} {cutoff : ℚ} {seen : List (Option String)}
    {r : Option (String × ℚ × Nat)} (h : scanInv q cutoff seen r) :
    scanInv q cutoff (seen ++ [none]) r := by
  constructor
  · intro hr k m hk
    rcases getElem?_concat_cases hk with h1 | ⟨_, h2⟩
    · exact h.1 hr k m h1
    · cases h2
  · intro n s j hr
    obtain ⟨h1, h2, h3, h4, h5⟩ := h.2 n s j hr
    have hj : j < seen.length := (List.getElem?_eq_some.mp h1).1
    refine ⟨?_, h2, h3, ?_, ?_⟩
    · rw [List.getElem?_append_left hj]
      exact h1
    · intro k m hk
      rcases getElem?_concat_cases hk with hx | ⟨_, hx2⟩
      · exact h4 k m hx
      · cases hx2
    · intro k m hklt hk
      rcases getElem?_concat_cases hk with hx | ⟨_, hx2⟩
      · exact h5 k m hklt hx
      · cases hx2

/-- The scan invariant is preserved by one scan step over an actual choice
`s`, placed at position `seen.length`. -/
lemma scanInv_extend_some {q : String} {cutoff : ℚ} {seen : List (Option String)}
    {r : Option (String × ℚ × Nat)} (s : String) (h : scanInv q cutoff seen r) :
    scanInv q cutoff (seen ++ [some s])
      (if better cutoff (tokenSortSim q s) r then some (s, tokenSortSim q s, seen.length)
       else r) := by
  by_cases hb : better cutoff (tokenSortSim q s) r = true
  · rw [if_pos hb]
    rw [better.eq_def, Bool.and_eq_true] at hb
    have hcut : cutoff ≤ tokenSortSim q s := of_decide_eq_true hb.1
    constructor
    · intro hr
      cases hr
    · intro n' s' j' hr
      have hn' : n' = s ∧ s' = tokenSortSim q s ∧ j' = seen.length := by
        injection hr with hr'
        injection hr' with e1 hr''
        injection hr'' with e2 e3
        exact ⟨e1.symm, e2.symm, e3.symm⟩
      obtain ⟨e1, e2, e3⟩ := hn'
      rw [e1, e2, e3]
      refine ⟨List.getElem?_concat_length _ _, rfl, hcut, ?_, ?_⟩
      · intro k m hk
        rcases getElem?_concat_cases hk with hx | ⟨_, hx2⟩
        · rcases r with _ | ⟨n0, s0, j0⟩
          · exact le_of_lt (lt_of_lt_of_le (h.1 rfl k m hx) hcut)
          · obtain ⟨_, _, _, h4, _⟩ := h.2 n0 s0 j0 rfl
            have hs0 : s0 < tokenSortSim q s := of_decide_eq_true hb.2
            exact le_of_lt (lt_of_le_of_lt (h4 k m hx) hs0)
        · injection hx2 with e
          rw [e]
      · intro k m hklt hk
        have hkseen : k < seen.length := hklt
        rcases getElem?_concat_cases hk with hx | ⟨hke, _⟩
        · rcases r with _ | ⟨n0, s0, j0⟩
          · exact lt_of_lt_of_le (h.1 rfl k m hx) hcut
          · obtain ⟨_, _, _, h4, _⟩ := h.2 n0 s0 j0 rfl
            have hs0 : s0 < tokenSortSim q s := of_decide_eq_true hb.2
            exact lt_of_le_of_lt (h4 k m hx) hs0
        · omega
  · rw [if_neg hb]
    have hb' : cutoff ≤ tokenSortSim q s →
        ∃ n0 s0 j0, r = some (n0, s0, j0) ∧ tokenSortSim q s ≤ s0 := by
      intro hcut
      rcases r with _ | ⟨n0, s0, j0⟩
      · exfalso
        apply hb
        simp [better, hcut]
      · by_cases hlt : s0 < tokenSortSim q s
        · exfalso
          apply hb
          simp [better, hcut, hlt]
        · exact ⟨n0, s0, j0, rfl, le_of_not_lt hlt⟩
    constructor
    · intro hr k m hk
      subst hr
      rcases getElem?_concat_cases hk with hx | ⟨_, hx2⟩
      · exact h.1 rfl k m hx
      · injection hx2 with e
        subst e
        by_contra hcon
        obtain ⟨n0, s0, j0, hr0, _⟩ := hb' (le_of_not_lt hcon)
        cases hr0
    · intro n s0 j hr
      obtain ⟨h1, h2, h3, h4, h5⟩ := h.2 n s0 j hr
      have hj : j < seen.length := (List.getElem?_eq_some.mp h1).1
      refine ⟨?_, h2, h3, ?_, ?_⟩
      · rw [List.getElem?_append_left hj]
        exact h1
      · intro k m hk
        rcases getElem?_concat_cases hk with hx | ⟨_, hx2⟩
        · exact h4 k m hx
        · injection hx2 with e
          subst e
          by_cases hcut : cutoff ≤ tokenSortSim q m
          · obtain ⟨n0', s0', j0', hr0, hle⟩ := hb' hcut
            rw [hr] at hr0
            injection hr0 with hr0'
            injection hr0' with e1 hr0''
            injection hr0'' with e2 e3
            rw [← e2] at hle
            exact hle
          · exact le_trans (le_of_lt (lt_of_not_le hcut)) h3
      · intro k m hklt hk
        rcases getElem?_concat_cases hk with hx | ⟨hke, _⟩
        · exact h5 k m hklt hx
        · omega

/-- The scan invariant is carried from any examined prefix through the rest
of the scan. -/
lemma scanBest_inv (q : String) (cutoff : ℚ) :
    ∀ (cs seen : List (Option String)) (r : Option (String × ℚ × Nat)),
      scanInv q cutoff seen r →
      scanInv q cutoff (seen ++ cs) (scanBest q cutoff cs seen.length r) := by
  intro cs
  induction cs with
  | nil =>
    intro seen r h
    simpa [scanBest] using h
  | cons c cs ih =>
    intro seen r h
    rcases c with _ | s
    · have h' := scanInv_extend_none h
      have := ih (seen ++ [none]) r h'
      simpa [scanBest, List.length_append, List.append_assoc] using this
    · have h' := scanInv_extend_some s h
      have := ih (seen ++ [some s])
        (if better cutoff (tokenSortSim q s) r then some (s, tokenSortSim q s, seen.length)
         else r) h'
      simpa [scanBest, List.length_append, List.append_assoc] using this

/-- The result of `extractOne` on a present query satisfies the scan
invariant over the full list of choices. -/
lemma extractOne_inv (q : String) (choices : List (Option String)) (cutoff : ℚ) :
    scanInv q cutoff choices (extractOne (some q) choices cutoff) := by
  have h0 : scanInv q cutoff [] none := by
    constructor
    · intro _ k m hk
      cases hk
    · intro n s j hr
      cases hr
  have := scanBest_inv q cutoff choices [] none h0
  simpa [extractOne] using this

/-- Soundness of a successful `find_match`: the returned tuple is read off
one row of the comparison list, its score is the token-sort similarity of
the query and that row's name, it reaches the threshold, and it is maximal
among all candidate scores, strictly so among earlier candidates. -/
lemma find_match_some_spec {q : String} {idx : Option ℤ} {compList : List CompRow}
    {threshold : ℚ} {n : String} {s : ℚ} {oi : Option ℤ} {c : String}
    (h : find_match (some q) idx compList threshold = some (n, s, oi, c)) :
    ∃ j row, (comparisonList idx compList)[j]? = some row ∧
      row.name = some n ∧ row.origIdx = oi ∧ row.category = c ∧
      s = tokenSortSim q n ∧ threshold ≤ s ∧
      (∀ (k : Nat) (r' : CompRow) (m : String),
        (comparisonList idx compList)[k]? = some r' → r'.name = some m → tokenSortSim q m ≤ s) ∧
      (∀ (k : Nat) (r' : CompRow) (m : String), k < j →
        (comparisonList idx compList)[k]? = some r' → r'.name = some m → tokenSortSim q m < s) := by
  have hinv := extractOne_inv q ((comparisonList idx compList).map (fun r => r.name)) threshold
  rw [find_match] at h
  rcases hE : extractOne (some q) ((comparisonList idx compList).map (fun r => r.name)) threshold
    with _ | ⟨bm, sc, j⟩
  · rw [hE] at h
    cases h
  · rw [hE] at h hinv
    dsimp only at h
    obtain ⟨hj, hsc, hcut, hmax, hfirst⟩ := hinv.2 bm sc j rfl
    rw [if_pos hcut] at h
    rw [List.getElem?_map] at hj
    rcases hrow : (comparisonList idx compList)[j]? with _ | row
    · rw [hrow] at hj
      cases hj
    · rw [hrow] at h hj
      have hname : row.name = some bm := by
        simpa using hj
      have heq : bm = n ∧ sc = s ∧ row.origIdx = oi ∧ row.category = c := by
        injection h with h'
        injection h' with e1 h''
        injection h'' with e2 h'''
        injection h''' with e3 e4
        exact ⟨e1, e2, e3, e4⟩
      obtain ⟨e1, e2, e3, e4⟩ := heq
      refine ⟨j, row, hrow, by rw [← e1]; exact hname, e3, e4, by rw [← e1, ← e2]; exact hsc,
        by rw [← e2]; exact hcut, ?_, ?_⟩
      · intro k r' m hk hm
        have hch : ((comparisonList idx compList).map (fun r => r.name))[k]? = some (some m) := by
          rw [List.getElem?_map, hk]
          simp [hm]
        have := hmax k m hch
        rw [← e2]
        exact this
      · intro k r' m hklt hk hm
        have hch : ((comparisonList idx compList).map (fun r => r.name))[k]? = some (some m) := by
          rw [List.getElem?_map, hk]
          simp [hm]
        have := hfirst k m hklt hch
        rw [← e2]
        exact this

/-- Characterization of an unsuccessful `find_match` on a present query:
it returns the no-match tuple exactly when every candidate scores strictly
below the threshold. -/
lemma find_match_none_iff {q : String} {idx : Option ℤ} {compList : List CompRow}
    {threshold : ℚ} :
    find_match (some q) idx compList threshold = none ↔
      ∀ (k : Nat) (r' : CompRow) (m : String),
        (comparisonList idx compList)[k]? = some r' → r'.name = some m →
        tokenSortSim q m < threshold := by
  have hinv := extractOne_inv q ((comparisonList idx compList).map (fun r => r.name)) threshold
  constructor
  · intro h k r' m hk hm
    rw [find_match] at h
    rcases hE : extractOne (some q) ((comparisonList idx compList).map (fun r => r.name)) threshold
      with _ | ⟨bm, sc, j⟩
    · rw [hE] at hinv
      apply hinv.1 rfl k m
      rw [List.getElem?_map, hk]
      simp [hm]
    · exfalso
      rw [hE] at h hinv
      dsimp only at h
      obtain ⟨hj, hsc, hcut, _, _⟩ := hinv.2 bm sc j rfl
      rw [if_pos hcut] at h
      rw [List.getElem?_map] at hj
      rcases hrow : (comparisonList idx compList)[j]? with _ | row
      · rw [hrow] at hj
        cases hj
      · rw [hrow] at h
        cases h
  · intro hall
    rw [find_match]
    rcases hE : extractOne (some q) ((comparisonList idx compList).map (fun r => r.name)) threshold
      with _ | ⟨bm, sc, j⟩
    · rw [hE]
    · exfalso
      rw [hE] at hinv
      obtain ⟨hj, hsc, hcut, _, _⟩ := hinv.2 bm sc j rfl
      rw [List.getElem?_map] at hj
      rcases hrow : (comparisonList idx compList)[j]? with _ | row
      · rw [hrow] at hj
        cases hj
      · rw [hrow] at hj
        have hname : row.name = some bm := by
          simpa using hj
        have := hall j row bm hrow hname
        rw [← hsc] at this
        exact absurd hcut (not_le_of_lt this)

/-- A `find_match` on a missing (NA) query name always reports no match. -/
lemma find_match_na_query {idx : Option ℤ} {compList : List CompRow} {threshold : ℚ} :
    find_match none idx compList threshold = none := rfl

/-- A row accepted by the pandas `!=` filter cannot carry the excluded
(non-NaN) index value. -/
lemma pandasNe_some_left {v : ℤ} {b : Option ℤ} (h : pandasNe (some v) b = true) :
    b ≠ some v := by
  rcases b with _ | x
  · simp
  · simp only [pandasNe, decide_eq_true_eq] at h
    intro hc
    injection hc with e
    exact h e.symm

/-- Unpack membership in a `matcher` result: every output pair comes from a
frame row, annotated according to the outcome of `find_match` for that row
(with the null score coerced to 0 and the score rounded to two decimals). -/
lemma matcher_mem {df : List DfRow} {t : ℚ} {p : DfRow × MatchCols} (hp : p ∈ matcher df t) :
    ∃ r, r ∈ df ∧
      ((find_match r.name r.origIdx (df.map compOf) t = none ∧
          p = (r, ⟨none, 0, none, none⟩)) ∨
        (∃ n s oi c, find_match r.name r.origIdx (df.map compOf) t = some (n, s, oi, c) ∧
          p = (r, ⟨some n, round2 s, some oi, some c⟩))) := by
  rw [matcher] at hp
  obtain ⟨r, hr, heq⟩ := List.mem_map.mp hp
  refine ⟨r, hr, ?_⟩
  rcases hfm : find_match r.name r.origIdx (df.map compOf) t with _ | ⟨n, s, oi, c⟩
  · left
    rw [hfm] at heq
    exact ⟨rfl, heq.symm⟩
  · right
    refine ⟨n, s, oi, c, rfl, ?_⟩
    rw [hfm] at heq
    exact heq.symm

/-- A successful `find_match` needs a present query name. -/
lemma find_match_some_query {nm : Option String} {idx : Option ℤ} {compList : List CompRow}
    {t : ℚ} {res : String × ℚ × Option ℤ × String}
    (h : find_match nm idx compList t = some res) : ∃ q, nm = some q := by
  rcases nm with _ | q
  · cases h
  · exact ⟨q, rfl⟩

/-- Raising the threshold preserves the no-match outcome of `find_match`. -/
lemma find_match_none_mono {nm : Option String} {idx : Option ℤ} {compList : List CompRow}
    {t1 t2 : ℚ} (h12 : t1 ≤ t2) (h : find_match nm idx compList t1 = none) :
    find_match nm idx compList t2 = none := by
  rcases nm with _ | q
  · rfl
  · rw [find_match_none_iff] at h ⊢
    intro k r' m hk hm
    exact lt_of_lt_of_le (h k r' m hk hm) h12

/-- Half-to-even rounding of a nonnegative rational is nonnegative. -/
lemma rndHalfEven_nonneg {q : ℚ} (h : 0 ≤ q) : 0 ≤ rndHalfEven q := by
  have hf : (0 : ℤ) ≤ ⌊q⌋ := Int.floor_nonneg.mpr h
  unfold rndHalfEven
  split
  · exact hf
  · split
    · omega
    · split
      · exact hf
      · omega

/-- Half-to-even rounding of a rational at most 10000 is at most 10000. -/
lemma rndHalfEven_le {q : ℚ} (h : q ≤ 10000) : rndHalfEven q ≤ 10000 := by
  have hfle : ⌊q⌋ ≤ 10000 := by
    have := Int.floor_le_floor h
    simpa using this
  unfold rndHalfEven
  split
  · exact hfle
  · have hhalf : ¬(q - ⌊q⌋ < 1 / 2) := by assumption
    have h2 : (1 : ℚ) / 2 ≤ q - ⌊q⌋ := le_of_not_lt hhalf
    have hlt : (⌊q⌋ : ℚ) < 10000 := by
      have : (⌊q⌋ : ℚ) ≤ q - 1 / 2 := by linarith
      linarith
    have hlt' : ⌊q⌋ < 10000 := by exact_mod_cast hlt
    split
    · omega
    · split
      · omega
      · omega

/-- Rounding to two decimals keeps a score inside [0, 100]. -/
lemma round2_bounds {s : ℚ} (h0 : 0 ≤ s) (h1 : s ≤ 100) :
    0 ≤ round2 s ∧ round2 s ≤ 100 := by
  have hm0 : 0 ≤ s * 100 := by nlinarith
  have hm1 : s * 100 ≤ 10000 := by nlinarith
  have hz0 := rndHalfEven_nonneg hm0
  have hz1 := rndHalfEven_le hm1
  unfold round2
  constructor
  · positivity
  · rw [div_le_iff₀ (by norm_num : (0:ℚ) < 100)]
    have : ((rndHalfEven (s * 100) : ℤ) : ℚ) ≤ 10000 := by exact_mod_cast hz1
    linarith

/-- C1: for every pool, every item and every threshold in [0,100],
`find_match` scores the item's normalized name against every other
candidate's normalized name with the token-sort similarity; when it
returns a tuple, that tuple belongs to a candidate whose score equals the
returned score, the score is at least the threshold (inclusive) and is the
highest candidate score; otherwise it returns the all-null tuple, and it
does so exactly when every candidate scores strictly below the
threshold. -/
theorem find_match_returns_best (compList : List CompRow) (q : String) (idx : Option ℤ)
    (t : ℚ) (h0 : 0 ≤ t) (h1 : t ≤ 100) :
    (∀ (n : String) (s : ℚ) (oi : Option ℤ) (c : String),
      find_match (some q) idx compList t = some (n, s, oi, c) →
      s = tokenSortSim q n ∧ t ≤ s ∧
      (∃ row, row ∈ comparisonList idx compList ∧ row.name = some n ∧
        row.origIdx = oi ∧ row.category = c) ∧
      (∀ (row : CompRow) (m : String), row ∈ comparisonList idx compList →
        row.name = some m → tokenSortSim q m ≤ s)) ∧
    (find_match (some q) idx compList t = none →
      ∀ (row : CompRow) (m : String), row ∈ comparisonList idx compList →
        row.name = some m → tokenSortSim q m < t) := by
  constructor
  · intro n s oi c h
    obtain ⟨j, row, hrow, hname, hoi, hcat, hs, hts, hmax, _⟩ := find_match_some_spec h
    refine ⟨hs, hts, ⟨row, List.mem_iff_getElem?.mpr ⟨j, hrow⟩, hname, hoi, hcat⟩, ?_⟩
    intro row' m hmem hm
    obtain ⟨k, hk⟩ := List.mem_iff_getElem?.mp hmem
    exact hmax k row' m hk hm
  · intro h row m hmem hm
    obtain ⟨k, hk⟩ := List.mem_iff_getElem?.mp hmem
    exact find_match_none_iff.mp h k row m hk hm

/-- Witness for C1 at a concrete pool and threshold 80: the hypotheses
0 ≤ 80 ≤ 100 hold and the characterization applies; additionally the
match outcome itself is evaluated on the pool, showing the tied best
candidates resolve to the first one. -/
theorem find_match_returns_best_witness :
    (0 : ℚ) ≤ 80 ∧ (80 : ℚ) ≤ 100 ∧
    ((∀ (n : String) (s : ℚ) (oi : Option ℤ) (c : String),
      find_match (some "ab") (some 0)
        [⟨some 0, some "ab", "Event"⟩, ⟨some 1, some "ab", "Event"⟩, ⟨some 2, some "ab", "Event"⟩]
        80 = some (n, s, oi, c) →
      s = tokenSortSim "ab" n ∧ (80 : ℚ) ≤ s ∧
      (∃ row, row ∈ comparisonList (some 0)
          [⟨some 0, some "ab", "Event"⟩, ⟨some 1, some "ab", "Event"⟩, ⟨some 2, some "ab", "Event"⟩] ∧
        row.name = some n ∧ row.origIdx = oi ∧ row.category = c) ∧
      (∀ (row : CompRow) (m : String), row ∈ comparisonList (some 0)
          [⟨some 0, some "ab", "Event"⟩, ⟨some 1, some "ab", "Event"⟩, ⟨some 2, some "ab", "Event"⟩] →
        row.name = some m → tokenSortSim "ab" m ≤ s)) ∧
    (find_match (some "ab") (some 0)
        [⟨some 0, some "ab", "Event"⟩, ⟨some 1, some "ab", "Event"⟩, ⟨some 2, some "ab", "Event"⟩]
        80 = none →
      ∀ (row : CompRow) (m : String), row ∈ comparisonList (some 0)
          [⟨some 0, some "ab", "Event"⟩, ⟨some 1, some "ab", "Event"⟩, ⟨some 2, some "ab", "Event"⟩] →
        row.name = some m → tokenSortSim "ab" m < 80)) :=
  ⟨by norm_num, by norm_num,
    find_match_returns_best
      [⟨some 0, some "ab", "Event"⟩, ⟨some 1, some "ab", "Event"⟩, ⟨some 2, some "ab", "Event"⟩]
      "ab" (some 0) 80 (by norm_num) (by norm_num)⟩

/-- C2: the comparison pool is the original pool with only the queried
index removed, in the original iteration order (a sublist, never
re-sorted), and when several candidates attain the best score the returned
tuple comes from the candidate at the earliest position: every strictly
earlier candidate scores strictly below the returned score. Together with
`find_match` being a function of the pool ordering, the result is
deterministic for a fixed pool ordering. -/
theorem find_match_first_candidate_wins (compList : List CompRow) (q : String)
    (idx : Option ℤ) (t : ℚ) :
    (comparisonList idx compList).Sublist compList ∧
    (∀ (n : String) (s : ℚ) (oi : Option ℤ) (c : String),
      find_match (some q) idx compList t = some (n, s, oi, c) →
      ∃ (j : Nat) (row : CompRow), (comparisonList idx compList)[j]? = some row ∧
        row.name = some n ∧ row.origIdx = oi ∧ row.category = c ∧
        ∀ (k : Nat) (r' : CompRow) (m : String), k < j →
          (comparisonList idx compList)[k]? = some r' → r'.name = some m →
          tokenSortSim q m < s) := by
  constructor
  · exact List.filter_sublist compList
  · intro n s oi c h
    obtain ⟨j, row, hrow, hname, hoi, hcat, _, _, _, hfirst⟩ := find_match_some_spec h
    exact ⟨j, row, hrow, hname, hoi, hcat, hfirst⟩

/-- Witness for C2: on a pool with two identical candidates (both scoring
100 against the query), `find_match` evaluates to the earlier candidate
(original index 1, the first row of the comparison list), and the
first-candidate-wins characterization applies to that pool. -/
theorem find_match_first_candidate_wins_witness :
    find_match (some "ab") (some 0)
      [⟨some 0, some "ab", "Event"⟩, ⟨some 1, some "ab", "Event"⟩, ⟨some 2, some "ab", "Event"⟩]
      80 = some ("ab", 100, some 1, "Event") ∧
    ((comparisonList (some 0)
      [⟨some 0, some "ab", "Event"⟩, ⟨some 1, some "ab", "Event"⟩,
        ⟨some 2, some "ab", "Event"⟩]).Sublist
      [⟨some 0, some "ab", "Event"⟩, ⟨some 1, some "ab", "Event"⟩, ⟨some 2, some "ab", "Event"⟩] ∧
    (∀ (n : String) (s : ℚ) (oi : Option ℤ) (c : String),
      find_match (some "ab") (some 0)
        [⟨some 0, some "ab", "Event"⟩, ⟨some 1, some "ab", "Event"⟩, ⟨some 2, some "ab", "Event"⟩]
        80 = some (n, s, oi, c) →
      ∃ (j : Nat) (row : CompRow), (comparisonList (some 0)
          [⟨some 0, some "ab", "Event"⟩, ⟨some 1, some "ab", "Event"⟩,
            ⟨some 2, some "ab", "Event"⟩])[j]? = some row ∧
        row.name = some n ∧ row.origIdx = oi ∧ row.category = c ∧
        ∀ (k : Nat) (r' : CompRow) (m : String), k < j →
          (comparisonList (some 0)
            [⟨some 0, some "ab", "Event"⟩, ⟨some 1, some "ab", "Event"⟩,
              ⟨some 2, some "ab", "Event"⟩])[k]? = some r' → r'.name = some m →
          tokenSortSim "ab" m < s)) :=
  ⟨by
    have hts : tokenSortSim "ab" "ab" = 100 := tokenSortSim_self "ab"
    have h80 : (80 : ℚ) ≤ 100 := by norm_num
    have h100 : ¬((100 : ℚ) < 100) := by norm_num
    simp [find_match, comparisonList, extractOne, scanBest, better, pandasNe, hts, h80, h100,
      List.filter],
   find_match_first_candidate_wins
    [⟨some 0, some "ab", "Event"⟩, ⟨some 1, some "ab", "Event"⟩, ⟨some 2, some "ab", "Event"⟩]
    "ab" (some 0) 80⟩

/-- C3: in every annotated output of `matcher`, whenever the match index
is non-null it differs from the row's own original index: self-exclusion is
performed by comparing original-index values (the pandas `!=` filter), so
even items with duplicate normalized names never match themselves. -/
theorem matcher_never_self_match (df : List DfRow) (t : ℚ) :
    ∀ p ∈ matcher df t, ∀ v : ℤ, p.2.matchIndex = some (some v) →
      p.1.origIdx ≠ some v := by
  intro p hp v hidx
  obtain ⟨r, _, hcase⟩ := matcher_mem hp
  rcases hcase with ⟨_, hpe⟩ | ⟨n, s, oi, c, hfm, hpe⟩
  · rw [hpe] at hidx
    cases hidx
  · rw [hpe] at hidx
    have hoi : oi = some v := by
      simpa using hidx
    obtain ⟨qn, hq⟩ := find_match_some_query hfm
    rw [hq] at hfm
    obtain ⟨j, row, hrow, _, hroi, _, _, _, _, _⟩ := find_match_some_spec hfm
    have hmem : row ∈ comparisonList r.origIdx (df.map compOf) :=
      List.mem_iff_getElem?.mpr ⟨j, hrow⟩
    have hne : pandasNe row.origIdx r.origIdx = true := (List.mem_filter.mp hmem).2
    rw [hroi, hoi] at hne
    have := pandasNe_some_left hne
    rw [hpe]
    exact this

/-- Witness for C3 at a concrete frame with duplicate normalized names:
the membership and non-nullity hypotheses are discharged on the evaluated
matcher output, whose first row matches index 1 while its own index is 0. -/
theorem matcher_never_self_match_witness :
    (⟨⟨some 0, some "ab", "Event", none⟩, ⟨some "ab", 100, some (some 1), some "Event"⟩⟩ :
        DfRow × MatchCols) ∈
      matcher [⟨some 0, some "ab", "Event", none⟩, ⟨some 1, some "ab", "Event", none⟩] 80 ∧
    (⟨⟨some 0, some "ab", "Event", none⟩,
        ⟨some "ab", 100, some (some 1), some "Event"⟩⟩ : DfRow × MatchCols).2.matchIndex =
      some (some 1) ∧
    (⟨⟨some 0, some "ab", "Event", none⟩,
        ⟨some "ab", 100, some (some 1), some "Event"⟩⟩ : DfRow × MatchCols).1.origIdx ≠ some 1 := by
  have hmem : (⟨⟨some 0, some "ab", "Event", none⟩,
      ⟨some "ab", 100, some (some 1), some "Event"⟩⟩ : DfRow × MatchCols) ∈
      matcher [⟨some 0, some "ab", "Event", none⟩, ⟨some 1, some "ab", "Event", none⟩] 80 := by
    have hts : tokenSortSim "ab" "ab" = 100 := tokenSortSim_self "ab"
    have h80 : (80 : ℚ) ≤ 100 := by norm_num
    have h100 : ¬((100 : ℚ) < 100) := by norm_num
    have hr : round2 (100 : ℚ) = 100 := by
      unfold round2 rndHalfEven
      norm_num
    simp [matcher, find_match, comparisonList, extractOne, scanBest, better, pandasNe, compOf,
      hts, hr, h80, h100, List.filter]
  exact ⟨hmem, rfl,
    matcher_never_self_match
      [⟨some 0, some "ab", "Event", none⟩, ⟨some 1, some "ab", "Event", none⟩] 80
      _ hmem 1 rfl⟩

/-- C7: for a fixed frame, raising the threshold can only turn matches
into non-matches, never the reverse: row by row, a no-match at the lower
threshold stays a no-match at the higher one, and hence the number of
matched rows is monotonically non-increasing in the threshold. -/
theorem matcher_threshold_monotone (df : List DfRow) (t1 t2 : ℚ) (h12 : t1 ≤ t2) :
    (∀ (k : Nat) (p1 p2 : DfRow × MatchCols),
      (matcher df t1)[k]? = some p1 → (matcher df t2)[k]? = some p2 →
      p1.2.matchFound = none → p2.2.matchFound = none) ∧
    (matcher df t2).countP (fun p => p.2.matchFound.isSome) ≤
      (matcher df t1).countP (fun p => p.2.matchFound.isSome) := by
  have key : ∀ r : DfRow,
      find_match r.name r.origIdx (df.map compOf) t1 = none →
      find_match r.name r.origIdx (df.map compOf) t2 = none :=
    fun r h => find_match_none_mono h12 h
  constructor
  · intro k p1 p2 hk1 hk2 hnone
    rw [matcher, List.getElem?_map] at hk1 hk2
    rcases hr : df[k]? with _ | r
    · rw [hr] at hk1
      cases hk1
    · rw [hr] at hk1 hk2
      simp only [Option.map_some'] at hk1 hk2
      have hp1 := hk1.symm
      have hp2 := hk2.symm
      rcases hfm1 : find_match r.name r.origIdx (df.map compOf) t1 with _ | res1
      · have hfm2 := key r hfm1
        rw [hfm2] at hp2
        injection hp2 with e
        rw [e]
      · rw [hfm1] at hp1
        rcases res1 with ⟨n, s, oi, c⟩
        simp only [Option.some.injEq] at hp1
        rw [hp1] at hnone
        simp at hnone
  · rw [matcher, matcher, List.countP_map, List.countP_map]
    apply List.countP_mono_left
    intro r _ hsome
    simp only [Function.comp] at hsome ⊢
    rcases hfm1 : find_match r.name r.origIdx (df.map compOf) t1 with _ | res1
    · have hfm2 := key r hfm1
      rw [hfm2] at hsome
      simp at hsome
    · rcases res1 with ⟨n, s, oi, c⟩
      simp

/-- Witness for C7 at a concrete frame and thresholds 80 ≤ 90: the
hypothesis holds and the per-row and counting monotonicity statements
apply to the evaluated matcher outputs. -/
theorem matcher_threshold_monotone_witness :
    (80 : ℚ) ≤ 90 ∧
    ((∀ (k : Nat) (p1 p2 : DfRow × MatchCols),
      (matcher [⟨some 0, some "ab", "Event", none⟩] 80)[k]? = some p1 →
      (matcher [⟨some 0, some "ab", "Event", none⟩] 90)[k]? = some p2 →
      p1.2.matchFound = none → p2.2.matchFound = none) ∧
    (matcher [⟨some 0, some "ab", "Event", none⟩] 90).countP
        (fun p => p.2.matchFound.isSome) ≤
      (matcher [⟨some 0, some "ab", "Event", none⟩] 80).countP
        (fun p => p.2.matchFound.isSome)) :=
  ⟨by norm_num,
   matcher_threshold_monotone [⟨some 0, some "ab", "Event", none⟩] 80 90 (by norm_num)⟩

/-- C5: in every annotated `matcher` output, the match score is always
present and numeric: it lies in [0,100] and is a multiple of 1/100 (null
scores are coerced to exactly 0 and surviving scores are rounded to two
decimal places), while the match-found, match-index and match-category
columns are left null for rows with no accepted match. -/
theorem matcher_score_in_range (df : List DfRow) (t : ℚ) :
    ∀ p ∈ matcher df t,
      (0 ≤ p.2.matchScore ∧ p.2.matchScore ≤ 100 ∧
        ∃ k : ℤ, p.2.matchScore = (k : ℚ) / 100) ∧
      (p.2.matchFound = none →
        p.2.matchScore = 0 ∧ p.2.matchIndex = none ∧ p.2.matchCategory = none) := by
  intro p hp
  obtain ⟨r, _, hcase⟩ := matcher_mem hp
  rcases hcase with ⟨_, hpe⟩ | ⟨n, s, oi, c, hfm, hpe⟩
  · rw [hpe]
    refine ⟨⟨by norm_num, by norm_num, ⟨0, by norm_num⟩⟩, fun _ => ⟨rfl, rfl, rfl⟩⟩
  · obtain ⟨qn, hq⟩ := find_match_some_query hfm
    rw [hq] at hfm
    obtain ⟨_, _, _, _, _, _, hs, _, _, _⟩ := find_match_some_spec hfm
    have hb := tokenSortSim_bounds qn n
    rw [← hs] at hb
    have hr2 := round2_bounds hb.1 hb.2
    rw [hpe]
    refine ⟨⟨hr2.1, hr2.2, ⟨rndHalfEven (s * 100), rfl⟩⟩, ?_⟩
    intro hnone
    cases hnone

/-- Witness for C5: on a concrete evaluated frame, the membership
hypothesis is discharged for the first output row and the range and
null-coercion statement is obtained for it. -/
theorem matcher_score_in_range_witness :
    (⟨⟨some 0, some "ab", "Event", none⟩, ⟨some "ab", 100, some (some 1), some "Event"⟩⟩ :
        DfRow × MatchCols) ∈
      matcher [⟨some 0, some "ab", "Event", none⟩, ⟨some 1, some "ab", "Event", none⟩] 80 ∧
    ((0 ≤ (⟨some "ab", 100, some (some 1), some "Event"⟩ : MatchCols).matchScore ∧
      (⟨some "ab", 100, some (some 1), some "Event"⟩ : MatchCols).matchScore ≤ 100 ∧
      ∃ k : ℤ, (⟨some "ab", 100, some (some 1), some "Event"⟩ : MatchCols).matchScore =
        (k : ℚ) / 100) ∧
    ((⟨some "ab", 100, some (some 1), some "Event"⟩ : MatchCols).matchFound = none →
      (⟨some "ab", 100, some (some 1), some "Event"⟩ : MatchCols).matchScore = 0 ∧
      (⟨some "ab", 100, some (some 1), some "Event"⟩ : MatchCols).matchIndex = none ∧
      (⟨some "ab", 100, some (some 1), some "Event"⟩ : MatchCols).matchCategory = none)) := by
  have hmem : (⟨⟨some 0, some "ab", "Event", none⟩,
      ⟨some "ab", 100, some (some 1), some "Event"⟩⟩ : DfRow × MatchCols) ∈
      matcher [⟨some 0, some "ab", "Event", none⟩, ⟨some 1, some "ab", "Event", none⟩] 80 := by
    have hts : tokenSortSim "ab" "ab" = 100 := tokenSortSim_self "ab"
    have h80 : (80 : ℚ) ≤ 100 := by norm_num
    have h100 : ¬((100 : ℚ) < 100) := by norm_num
    have hr : round2 (100 : ℚ) = 100 := by
      unfold round2 rndHalfEven
      norm_num
    simp [matcher, find_match, comparisonList, extractOne, scanBest, better, pandasNe, compOf,
      hts, hr, h80, h100, List.filter]
  exact ⟨hmem,
    matcher_score_in_range
      [⟨some 0, some "ab", "Event", none⟩, ⟨some 1, some "ab", "Event", none⟩] 80 _ hmem⟩

/-- C6 (counterexample): the claim says `match_found` references the
matched item's display name (the human-facing label). On the pipeline's
own data the matcher is run over the `Preprocessed Name` column: for the
two-event pool built from display names "Login Button Clicked" and
"login_button_clicked", the first row matches the second (match index 1),
but its `Match Found` value is the normalized string
"login button clicked", which differs from the matched item's display name
"login_button_clicked" (and from every display name in the pool). -/
theorem match_found_not_display_name :
    (matcher
      [⟨some 0, some (default_process "Login Button Clicked"), "Event",
          some "Login Button Clicked"⟩,
        ⟨some 1, some (default_process "login_button_clicked"), "Event",
          some "login_button_clicked"⟩] 80).map
      (fun p => (p.2.matchFound, p.2.matchIndex)) =
      [(some "login button clicked", some (some 1)),
        (some "login button clicked", some (some 0))] ∧
    ([⟨some 0, some (default_process "Login Button Clicked"), "Event",
          some "Login Button Clicked"⟩,
        ⟨some 1, some (default_process "login_button_clicked"), "Event",
          some "login_button_clicked"⟩] : List DfRow).map (fun r => r.displayName) =
      [some "Login Button Clicked", some "login_button_clicked"] ∧
    ("login button clicked" : String) ≠ "Login Button Clicked" ∧
    ("login button clicked" : String) ≠ "login_button_clicked" := by
  have hd1 : default_process "Login Button Clicked" = "login button clicked" := rfl
  have hd2 : default_process "login_button_clicked" = "login button clicked" := rfl
  have hts : tokenSortSim "login button clicked" "login button clicked" = 100 :=
    tokenSortSim_self "login button clicked"
  have h80 : (80 : ℚ) ≤ 100 := by norm_num
  have h100 : ¬((100 : ℚ) < 100) := by norm_num
  have hr : round2 (100 : ℚ) = 100 := by
    unfold round2 rndHalfEven
    norm_num
  refine ⟨?_, by decide, by decide, by decide⟩
  simp [matcher, find_match, comparisonList, extractOne, scanBest, better, pandasNe, compOf,
    hd1, hd2, hts, hr, h80, h100, List.filter]

/-- C6 (amended): whenever a `matcher` output row has a non-null
`match_found`, that value is the matched item's normalized name (its value
in the names column the matcher compares), not its display name: there is
a frame row whose name column holds exactly the `match_found` string and
whose original index and category are the returned match index and match
category; `match_found` is null when no match is accepted. -/
theorem match_found_is_normalized_name (df : List DfRow) (t : ℚ) :
    ∀ p ∈ matcher df t, ∀ n : String, p.2.matchFound = some n →
      ∃ r', r' ∈ df ∧ r'.name = some n ∧ p.2.matchIndex = some r'.origIdx ∧
        p.2.matchCategory = some r'.category := by
  intro p hp n hn
  obtain ⟨r, _, hcase⟩ := matcher_mem hp
  rcases hcase with ⟨_, hpe⟩ | ⟨n0, s, oi, c, hfm, hpe⟩
  · rw [hpe] at hn
    cases hn
  · rw [hpe] at hn
    have hn0 : n0 = n := by
      simpa using hn
    subst hn0
    obtain ⟨qn, hq⟩ := find_match_some_query hfm
    rw [hq] at hfm
    obtain ⟨j, row, hrow, hname, hroi, hcat, _, _, _, _⟩ := find_match_some_spec hfm
    have hmem : row ∈ comparisonList r.origIdx (df.map compOf) :=
      List.mem_iff_getElem?.mpr ⟨j, hrow⟩
    have hmem' : row ∈ df.map compOf := (List.mem_filter.mp hmem).1
    obtain ⟨r', hr', hcomp⟩ := List.mem_map.mp hmem'
    refine ⟨r', hr', ?_, ?_, ?_⟩
    · rw [show r'.name = row.name from by rw [← hcomp]; rfl]
      exact hname
    · rw [hpe]
      simp only
      rw [← hroi, ← hcomp]
      rfl
    · rw [hpe]
      simp only
      rw [← hcat, ← hcomp]
      rfl

/-- Witness for C6 (amended): on a concrete evaluated frame the non-null
match-found hypothesis is discharged for the first output row, whose
matched name is the second row's normalized name. -/
theorem match_found_is_normalized_name_witness :
    (⟨⟨some 0, some "ab", "Event", none⟩, ⟨some "ab", 100, some (some 1), some "Event"⟩⟩ :
        DfRow × MatchCols) ∈
      matcher [⟨some 0, some "ab", "Event", none⟩, ⟨some 1, some "ab", "Event", none⟩] 80 ∧
    ∃ r', r' ∈ ([⟨some 0, some "ab", "Event", none⟩, ⟨some 1, some "ab", "Event", none⟩] :
        List DfRow) ∧ r'.name = some "ab" ∧
      (⟨some "ab", 100, some (some 1), some "Event"⟩ : MatchCols).matchIndex = some r'.origIdx ∧
      (⟨some "ab", 100, some (some 1), some "Event"⟩ : MatchCols).matchCategory =
        some r'.category := by
  have hmem : (⟨⟨some 0, some "ab", "Event", none⟩,
      ⟨some "ab", 100, some (some 1), some "Event"⟩⟩ : DfRow × MatchCols) ∈
      matcher [⟨some 0, some "ab", "Event", none⟩, ⟨some 1, some "ab", "Event", none⟩] 80 := by
    have hts : tokenSortSim "ab" "ab" = 100 := tokenSortSim_self "ab"
    have h80 : (80 : ℚ) ≤ 100 := by norm_num
    have h100 : ¬((100 : ℚ) < 100) := by norm_num
    have hr : round2 (100 : ℚ) = 100 := by
      unfold round2 rndHalfEven
      norm_num
    simp [matcher, find_match, comparisonList, extractOne, scanBest, better, pandasNe, compOf,
      hts, hr, h80, h100, List.filter]
  exact ⟨hmem,
    match_found_is_normalized_name
      [⟨some 0, some "ab", "Event", none⟩, ⟨some 1, some "ab", "Event", none⟩] 80
      _ hmem "ab" rfl⟩

/-- C10: over a frame whose original indices are present (non-NaN) and
unique, every non-null `find_match` result describes one single row of the
frame: there is exactly one row, at a position different from the queried
row's, whose original index is the returned match index, and that same row
carries the returned match name in its names column and the returned match
category in its category column. -/
theorem find_match_describes_one_row (df : List DfRow) (t : ℚ)
    (hall : ∀ r ∈ df, (r.origIdx).isSome)
    (huniq : (df.map (fun r => r.origIdx)).Nodup) :
    ∀ (i : Nat) (r : DfRow) (n : String) (s : ℚ) (oi : Option ℤ) (c : String),
      df[i]? = some r →
      find_match r.name r.origIdx (df.map compOf) t = some (n, s, oi, c) →
      ∃ (j : Nat) (r' : DfRow), df[j]? = some r' ∧ j ≠ i ∧ r'.origIdx = oi ∧
        r'.name = some n ∧ r'.category = c ∧
        (∀ (j2 : Nat) (r2 : DfRow), df[j2]? = some r2 → r2.origIdx = oi → j2 = j) := by
  intro i r n s oi c hi hfm
  obtain ⟨qn, hq⟩ := find_match_some_query hfm
  rw [hq] at hfm
  obtain ⟨jc, row, hrow, hname, hroi, hcat, _, _, _, _⟩ := find_match_some_spec hfm
  have hmem : row ∈ comparisonList r.origIdx (df.map compOf) :=
    List.mem_iff_getElem?.mpr ⟨jc, hrow⟩
  have hne : pandasNe row.origIdx r.origIdx = true := (List.mem_filter.mp hmem).2
  have hmem' : row ∈ df.map compOf := (List.mem_filter.mp hmem).1
  obtain ⟨r', hr', hcomp⟩ := List.mem_map.mp hmem'
  obtain ⟨j, hj⟩ := List.mem_iff_getElem?.mp hr'
  have hroi' : r'.origIdx = oi := by
    rw [← hroi, ← hcomp]
    rfl
  have hrname : r'.name = some n := by
    rw [show r'.name = row.name from by rw [← hcomp]; rfl, hname]
  have hrcat : r'.category = c := by
    rw [show r'.category = row.category from by rw [← hcomp]; rfl, hcat]
  have hrdf : r ∈ df := List.mem_iff_getElem?.mpr ⟨i, hi⟩
  obtain ⟨v, hv⟩ := Option.isSome_iff_exists.mp (hall r hrdf)
  obtain ⟨w, hw⟩ := Option.isSome_iff_exists.mp (hall r' hr')
  have hwv : w ≠ v := by
    rw [← hcomp] at hne
    simp only [compOf] at hne
    rw [hv, hw] at hne
    simpa [pandasNe] using hne
  have hji : j ≠ i := by
    intro hc
    rw [hc, hi] at hj
    have hrr : r' = r := by
      injection hj with e
      exact e.symm
    rw [hrr, hv] at hw
    injection hw with e
    exact hwv e.symm
  refine ⟨j, r', hj, hji, hroi', hrname, hrcat, ?_⟩
  intro j2 r2 hj2 hoi2
  have hlt : j2 < (df.map (fun r => r.origIdx)).length := by
    rw [List.length_map]
    exact (List.getElem?_eq_some.mp hj2).1
  apply List.getElem?_inj hlt huniq
  rw [List.getElem?_map, List.getElem?_map, hj2, hj]
  simp [hoi2, hroi']

/-- Witness for C10: the presence and uniqueness hypotheses are discharged
on a concrete two-row frame, the query hypothesis is the evaluated
`find_match` result for row 0, and the unique matched row is obtained. -/
theorem find_match_describes_one_row_witness :
    (∀ r ∈ ([⟨some 0, some "ab", "Event", none⟩, ⟨some 1, some "ab", "Event", none⟩] :
        List DfRow), (r.origIdx).isSome) ∧
    (([⟨some 0, some "ab", "Event", none⟩, ⟨some 1, some "ab", "Event", none⟩] :
        List DfRow).map (fun r => r.origIdx)).Nodup ∧
    ∃ (j : Nat) (r' : DfRow),
      ([⟨some 0, some "ab", "Event", none⟩, ⟨some 1, some "ab", "Event", none⟩] :
        List DfRow)[j]? = some r' ∧ j ≠ 0 ∧ r'.origIdx = some 1 ∧
      r'.name = some "ab" ∧ r'.category = "Event" ∧
      (∀ (j2 : Nat) (r2 : DfRow),
        ([⟨some 0, some "ab", "Event", none⟩, ⟨some 1, some "ab", "Event", none⟩] :
          List DfRow)[j2]? = some r2 → r2.origIdx = some 1 → j2 = j) := by
  have hfm : find_match (some "ab") (some 0)
      (([⟨some 0, some "ab", "Event", none⟩, ⟨some 1, some "ab", "Event", none⟩] :
        List DfRow).map compOf) 80 = some ("ab", 100, some 1, "Event") := by
    have hts : tokenSortSim "ab" "ab" = 100 := tokenSortSim_self "ab"
    have h80 : (80 : ℚ) ≤ 100 := by norm_num
    have h100 : ¬((100 : ℚ) < 100) := by norm_num
    simp [find_match, comparisonList, extractOne, scanBest, better, pandasNe, compOf,
      hts, h80, h100, List.filter]
  exact ⟨by decide, by decide,
    find_match_describes_one_row
      [⟨some 0, some "ab", "Event", none⟩, ⟨some 1, some "ab", "Event", none⟩] 80
      (by decide) (by decide) 0 ⟨some 0, some "ab", "Event", none⟩ "ab" 100 (some 1) "Event"
      rfl hfm⟩

/-- C8 (counterexample): the claim says that over a pool in which every
row's normalized name is empty or null, every row reports no match with
score 0. For the pool of two rows whose normalized names are both the
empty string (as `default_process` produces for punctuation-only labels),
every row instead reports a match with score 100: rapidfuzz scores two
empty strings as 100, not 0, and with threshold 80 the empty-named rows
match each other. (No exception is raised, in accordance with the claim's
error-freedom part.) -/
theorem matcher_empty_names_match :
    (matcher [⟨some 0, some (default_process "!!!"), "Event", none⟩,
        ⟨some 1, some (default_process "???"), "Event", none⟩] 80).map
      (fun p => (p.2.matchFound, p.2.matchScore)) =
      [(some "", 100), (some "", 100)] ∧
    some (default_process "!!!") = some "" ∧
    some (default_process "???") = some "" ∧
    (100 : ℚ) ≠ 0 := by
  have hd1 : default_process "!!!" = "" := rfl
  have hd2 : default_process "???" = "" := rfl
  have hts : tokenSortSim "" "" = 100 := tokenSortSim_self ""
  have h80 : (80 : ℚ) ≤ 100 := by norm_num
  have h100 : ¬((100 : ℚ) < 100) := by norm_num
  have hr : round2 (100 : ℚ) = 100 := by
    unfold round2 rndHalfEven
    norm_num
  refine ⟨?_, rfl, rfl, by norm_num⟩
  simp [matcher, find_match, comparisonList, extractOne, scanBest, better, pandasNe, compOf,
    hd1, hd2, hts, hr, h80, h100, List.filter]

/-- C8 (amended): when a required source column is absent, `preprocess`
raises nothing and produces an all-null `Preprocessed Name` column; and
over any frame whose normalized names are all null, the matcher raises
nothing (it is a total function here, mirroring rapidfuzz's handling of
None-like queries and choices) and annotates every row as no-match with
score 0. Empty-string names also never raise, but — unlike null names —
two empty strings score 100 against each other, so all-empty pools report
matches at any threshold up to 100. -/
theorem matcher_null_names_no_match (rows : List RawEventRow) (df : List DfRow) (t : ℚ)
    (h : ∀ r ∈ df, r.name = none) :
    preprocessEvent false rows = rows.map (fun _ => none) ∧
    matcher df t = df.map (fun r => (r, ⟨none, 0, none, none⟩)) := by
  constructor
  · simp [preprocessEvent]
  · rw [matcher]
    apply List.map_congr_left
    intro r hr
    rw [h r hr]
    rfl

/-- Witness for C8 (amended): the all-null-name hypothesis is discharged
on a concrete one-row frame built from a missing-column preprocess run,
and both equalities are evaluated. -/
theorem matcher_null_names_no_match_witness :
    (∀ r ∈ ([⟨some 0, none, "Event", none⟩] : List DfRow), r.name = none) ∧
    preprocessEvent false [⟨"Login", none⟩] = [none] ∧
    matcher [⟨some 0, none, "Event", none⟩] 80 =
      [(⟨some 0, none, "Event", none⟩, ⟨none, 0, none, none⟩)] := by
  have h := matcher_null_names_no_match [⟨"Login", none⟩]
    [⟨some 0, none, "Event", none⟩] 80 (by decide)
  exact ⟨by decide, h.1, h.2⟩

/-- Appending one present value to the column steps the running maximum. -/
lemma seriesMax_append_one (l : List (Option ℤ)) (v : ℤ) :
    seriesMax (l ++ [some v]) = maxStep (seriesMax l) (some v) := by
  unfold seriesMax
  rw [List.foldl_append]
  rfl

/-- Closed form of the pandas maximum over a shifted index range. -/
lemma seriesMax_range_shift (c : ℤ) :
    ∀ n : ℕ, seriesMax ((List.range n).map (fun (i : ℕ) => some ((i : ℤ) + c))) =
      if n = 0 then none else some (((n : ℤ) - 1) + c) := by
  intro n
  induction n with
  | zero => rfl
  | succ n ih =>
    rw [List.range_succ, List.map_append]
    simp only [List.map_cons, List.map_nil]
    rw [seriesMax_append_one, ih]
    rcases Nat.eq_zero_or_pos n with h0 | hpos
    · subst h0
      simp [maxStep]
    · have hne : n ≠ 0 := by omega
      simp only [hne, if_false, Nat.succ_ne_zero, maxStep]
      have hle : ((n : ℤ) - 1) + c ≤ (n : ℤ) + c := by linarith
      rw [max_eq_right hle]
      congr 1
      push_cast
      ring

/-- Projecting a function of the position out of an enumerated list is the
same function mapped over the index range. -/
lemma enum_map_position {α β : Type} (l : List α) (g : ℕ → β) :
    l.enum.map (fun p => g p.1) = (List.range l.length).map g := by
  conv_rhs => rw [← List.enum_map_fst l]
  rw [List.map_map]
  rfl

/-- The mapping of a position to a shifted integer index, wrapped in
`some`, is injective. -/
lemma some_shift_injective (c : ℤ) :
    Function.Injective (fun i : ℕ => (some ((i : ℤ) + c) : Option ℤ)) := by
  intro a b h
  simp only [Option.some.injEq, add_left_inj] at h
  exact_mod_cast h

/-- Three consecutive shifted index ranges contain no duplicates. -/
lemma nodup_three_ranges (nA nB nC : ℕ) :
    (((List.range nA).map (fun (i : ℕ) => (some ((i : ℤ) + 0) : Option ℤ)) ++
      (List.range nB).map (fun (i : ℕ) => some ((i : ℤ) + nA)) ++
      (List.range nC).map (fun (i : ℕ) => some ((i : ℤ) + nA + nB))) : List (Option ℤ)).Nodup := by
  have n1 : ((List.range nA).map (fun (i : ℕ) => (some ((i : ℤ) + 0) : Option ℤ))).Nodup :=
    (List.nodup_range nA).map (some_shift_injective 0)
  have n2 : ((List.range nB).map (fun (i : ℕ) => (some ((i : ℤ) + nA) : Option ℤ))).Nodup :=
    (List.nodup_range nB).map (some_shift_injective nA)
  have n3 : ((List.range nC).map (fun (i : ℕ) => (some ((i : ℤ) + nA + nB) : Option ℤ))).Nodup := by
    have := (List.nodup_range nC).map (some_shift_injective ((nA : ℤ) + nB))
    simpa [add_assoc] using this
  have d12 : ((List.range nA).map (fun (i : ℕ) => (some ((i : ℤ) + 0) : Option ℤ))).Disjoint
      ((List.range nB).map (fun (i : ℕ) => some ((i : ℤ) + nA))) := by
    intro a ha hb
    obtain ⟨i, hi, hia⟩ := List.mem_map.mp ha
    obtain ⟨j, hj, hja⟩ := List.mem_map.mp hb
    rw [← hia] at hja
    rw [List.mem_range] at hi hj
    simp only [Option.some.injEq] at hja
    omega
  have d123 : (((List.range nA).map (fun (i : ℕ) => (some ((i : ℤ) + 0) : Option ℤ))) ++
      ((List.range nB).map (fun (i : ℕ) => some ((i : ℤ) + nA)))).Disjoint
      ((List.range nC).map (fun (i : ℕ) => some ((i : ℤ) + nA + nB))) := by
    intro a ha hc
    obtain ⟨k, hk, hka⟩ := List.mem_map.mp hc
    rw [List.mem_range] at hk
    rcases List.mem_append.mp ha with h1 | h2
    · obtain ⟨i, hi, hia⟩ := List.mem_map.mp h1
      rw [← hia] at hka
      rw [List.mem_range] at hi
      simp only [Option.some.injEq] at hka
      omega
    · obtain ⟨j, hj, hja⟩ := List.mem_map.mp h2
      rw [← hja] at hka
      rw [List.mem_range] at hj
      simp only [Option.some.injEq] at hka
      omega
  exact (n1.append n2 d12).append n3 d123

/-- Projecting the original-index column out of a tagged, enumerated
sub-pool yields the index function mapped over the position range. -/
lemma enum_pool_map_origIdx (l : List SrcRow) (cat : String) (idxF : ℕ → Option ℤ) :
    ((l.enum.map (fun p => PoolRow.mk (idxF p.1) p.2.name cat p.2.displayName)).map
      (fun r => r.origIdx)) = (List.range l.length).map idxF := by
  rw [List.map_map]
  exact enum_map_position l idxF

/-- The concatenation of the three consecutive index ranges the Pool
Builder produces has no duplicates. -/
lemma nodup_pool_ranges (nA nB nC : ℕ) :
    ((List.range nA).map (fun (i : ℕ) => (some (i : ℤ) : Option ℤ)) ++
      (List.range nB).map (fun (i : ℕ) => some ((i : ℤ) + nA)) ++
      (List.range nC).map (fun (i : ℕ) => some ((i : ℤ) + nA + nB))).Nodup := by
  have := nodup_three_ranges nA nB nC
  simpa using this

/-- C4 (amended): provided the events sub-pool is non-empty, and the
deduplicated event-properties sub-pool is non-empty whenever a non-empty
user-properties sub-pool is present, the Pool Builder assigns original
indices so the sub-pools occupy disjoint, increasing integer ranges:
events take 0..|E|-1, event properties start at max(event index)+1 and
take |E|..|E|+|D|-1, and user properties start at max(event-property
index)+1 and take |E|+|D|..|E|+|D|+|U|-1; a missing or empty
user-properties sub-pool is omitted from the concatenation (the events
and event-properties frames are always included), and no index collision
occurs. Without the extra hypotheses the claim is false: see the
counterexample, where an empty sub-pool turns the `Series.max` offset into
NaN. -/
theorem buildPool_disjoint_ranges (events dedup : List SrcRow) (userProps : Option (List SrcRow))
    (hev : events ≠ [])
    (hdd : ∀ us : List SrcRow, userProps = some us → us ≠ [] → dedup ≠ []) :
    (buildPool events dedup userProps).map (fun r => r.origIdx) =
      (List.range events.length).map (fun (i : ℕ) => (some (i : ℤ) : Option ℤ)) ++
      (List.range dedup.length).map (fun (i : ℕ) => some ((i : ℤ) + events.length)) ++
      (match userProps with
       | none => []
       | some us =>
         if us.isEmpty then []
         else (List.range us.length).map
           (fun (i : ℕ) => some ((i : ℤ) + events.length + dedup.length))) ∧
    ((buildPool events dedup userProps).map (fun r => r.origIdx)).Nodup := by
  have hne : events.length ≠ 0 := by simpa [List.length_eq_zero] using hev
  have hmax : seriesMax ((List.range events.length).map
      (fun (i : ℕ) => (some (i : ℤ) : Option ℤ))) = some ((events.length : ℤ) - 1) := by
    have hcong : (List.range events.length).map (fun (i : ℕ) => (some (i : ℤ) : Option ℤ)) =
        (List.range events.length).map (fun (i : ℕ) => some ((i : ℤ) + 0)) := by simp
    rw [hcong, seriesMax_range_shift]
    simp [hne]
  have hcong2 : (List.range dedup.length).map
      (fun i => shiftIdx i (some ((events.length : ℤ) - 1))) =
      (List.range dedup.length).map (fun (i : ℕ) => some ((i : ℤ) + events.length)) := by
    apply List.map_congr_left
    intro i _
    simp [shiftIdx]
    ring
  have hEq : (buildPool events dedup userProps).map (fun r => r.origIdx) =
      (List.range events.length).map (fun (i : ℕ) => (some (i : ℤ) : Option ℤ)) ++
      (List.range dedup.length).map (fun (i : ℕ) => some ((i : ℤ) + events.length)) ++
      (match userProps with
       | none => []
       | some us =>
         if us.isEmpty then []
         else (List.range us.length).map
           (fun (i : ℕ) => some ((i : ℤ) + events.length + dedup.length))) := by
    rcases userProps with _ | us
    · simp only [buildPool]
      rw [List.map_append]
      rw [enum_pool_map_origIdx events "Event" (fun i => (some (i : ℤ) : Option ℤ))]
      rw [hmax]
      rw [enum_pool_map_origIdx dedup "Event Property"
        (fun i => shiftIdx i (some ((events.length : ℤ) - 1)))]
      rw [hcong2]
      simp
    · by_cases hemp : us.isEmpty
      · simp only [buildPool, if_pos hemp]
        rw [List.map_append]
        rw [enum_pool_map_origIdx events "Event" (fun i => (some (i : ℤ) : Option ℤ))]
        rw [hmax]
        rw [enum_pool_map_origIdx dedup "Event Property"
          (fun i => shiftIdx i (some ((events.length : ℤ) - 1)))]
        rw [hcong2]
        simp [hemp]
      · have husne : us ≠ [] := by
          simpa [List.isEmpty_iff] using hemp
        have hddne : dedup ≠ [] := hdd us rfl husne
        have hdne : dedup.length ≠ 0 := by simpa [List.length_eq_zero] using hddne
        simp only [buildPool, if_neg hemp]
        rw [List.map_append, List.map_append]
        rw [enum_pool_map_origIdx events "Event" (fun i => (some (i : ℤ) : Option ℤ))]
        rw [hmax]
        rw [enum_pool_map_origIdx dedup "Event Property"
          (fun i => shiftIdx i (some ((events.length : ℤ) - 1)))]
        rw [hcong2]
        have hmax2 : seriesMax ((List.range dedup.length).map
            (fun (i : ℕ) => some ((i : ℤ) + events.length))) =
            some (((dedup.length : ℤ) - 1) + events.length) := by
          rw [seriesMax_range_shift]
          simp [hdne]
        rw [hmax2]
        rw [enum_pool_map_origIdx us "User Property"
          (fun i => shiftIdx i (some (((dedup.length : ℤ) - 1) + events.length)))]
        have hcong3 : (List.range us.length).map
            (fun i => shiftIdx i (some (((dedup.length : ℤ) - 1) + events.length))) =
            (List.range us.length).map
              (fun (i : ℕ) => some ((i : ℤ) + events.length + dedup.length)) := by
          apply List.map_congr_left
          intro i _
          simp [shiftIdx]
          ring
        rw [hcong3]
  refine ⟨hEq, ?_⟩
  rw [hEq]
  rcases userProps with _ | us
  · have := nodup_pool_ranges events.length dedup.length 0
    simpa using this
  · by_cases hemp : us.isEmpty
    · have := nodup_pool_ranges events.length dedup.length 0
      simp only [if_pos hemp]
      simpa using this
    · have := nodup_pool_ranges events.length dedup.length us.length
      simp only [if_neg hemp]
      exact this

/-- C4 (counterexample): the claim says the Builder tolerates any
combination of present sub-pools and that no cross-category index
collision ever occurs. With an empty events sub-pool, one event property
and one user property, `Series.max` of the empty events index column is
NaN, the NaN propagates through both offset computations, and the
event-property row and the user-property row both receive a null original
index: a cross-category collision, with no disjoint integer ranges. -/
theorem buildPool_null_index_collision :
    (buildPool [] [⟨none, none⟩] (some [⟨none, none⟩])).map
      (fun r => (r.category, r.origIdx)) =
      [("Event Property", none), ("User Property", none)] ∧
    ¬ ((buildPool [] [⟨none, none⟩] (some [⟨none, none⟩])).map
      (fun r => r.origIdx)).Nodup := by
  constructor
  · rfl
  · decide

/-- Witness for C4 (amended): the non-emptiness hypotheses are discharged
on a concrete pool of two events, two event properties and one user
property, and the resulting index column is evaluated to the five
consecutive indices 0..4. -/
theorem buildPool_disjoint_ranges_witness :
    ([⟨some "a", none⟩, ⟨some "b", none⟩] : List SrcRow) ≠ [] ∧
    ([⟨some "c", none⟩, ⟨some "d", none⟩] : List SrcRow) ≠ [] ∧
    (buildPool [⟨some "a", none⟩, ⟨some "b", none⟩] [⟨some "c", none⟩, ⟨some "d", none⟩]
      (some [⟨some "e", none⟩])).map (fun r => r.origIdx) =
      [some 0, some 1, some 2, some 3, some 4] ∧
    ((buildPool [⟨some "a", none⟩, ⟨some "b", none⟩] [⟨some "c", none⟩, ⟨some "d", none⟩]
      (some [⟨some "e", none⟩])).map (fun r => r.origIdx)).Nodup := by
  have h := buildPool_disjoint_ranges [⟨some "a", none⟩, ⟨some "b", none⟩]
    [⟨some "c", none⟩, ⟨some "d", none⟩] (some [⟨some "e", none⟩])
    (by decide) (fun us h1 h2 => by decide)
  exact ⟨by decide, by decide, h.1.trans (by decide), h.2⟩

/-- C9 (counterexample): the claim says an exception raised while matching
one project is caught by the driver, only that project's reports are
skipped, and the remaining projects continue. The events-level `matcher`
call (main.py line 206) precedes the per-project `try` block: when it
raises for the first of two projects, the exception reaches the top-level
handler and the whole run returns `None` — the second project is never
processed — whereas a healthy single project processes normally. -/
theorem events_matcher_error_aborts_loop :
    processProjects [⟨false, true, false⟩, ⟨false, false, false⟩] false = none ∧
    processProjects [⟨false, false, false⟩] false =
      some [(⟨false, false, false⟩, true)] := by
  constructor
  · rfl
  · rfl

/-- C9 (amended): once the loop state has the matched-frame variables
defined (a previous project completed its report block), and no project's
events-level matcher call raises, an exception inside a project's
per-project try block (at the combined matcher call) is caught: that
project is recorded with its downstream reports skipped, and every
remaining project is still processed; load failures skip their project
entirely. -/
theorem caught_error_skips_project_only (ps : List Proj)
    (h : ∀ p ∈ ps, p.eventsMatcherRaises = false) :
    processProjects ps true =
      some (ps.filterMap (fun p => if p.loadFails then none else some (p, !p.reportsRaise))) := by
  induction ps with
  | nil => rfl
  | cons p ps ih =>
    have hp := h p (List.mem_cons_self p ps)
    have hps : ∀ x ∈ ps, x.eventsMatcherRaises = false :=
      fun x hx => h x (List.mem_cons_of_mem p hx)
    cases hl : p.loadFails with
    | true =>
      simp only [processProjects, hl, if_true, List.filterMap_cons, hp]
      exact ih hps
    | false =>
      cases hr : p.reportsRaise with
      | true =>
        simp only [processProjects, hl, hp, hr, List.filterMap_cons, if_true, if_false,
          Bool.false_eq_true, ih hps, Option.map_some']
        rfl
      | false =>
        simp only [processProjects, hl, hp, hr, List.filterMap_cons, if_true, if_false,
          Bool.false_eq_true, ih hps, Option.map_some']
        rfl

/-- Witness for C9 (amended): the no-events-matcher-failure hypothesis is
discharged on a concrete two-project run in which the first project's try
block raises; the evaluated outcome records the first project without
reports and the second with reports. -/
theorem caught_error_skips_project_only_witness :
    (∀ p ∈ ([⟨false, false, true⟩, ⟨false, false, false⟩] : List Proj),
      p.eventsMatcherRaises = false) ∧
    processProjects [⟨false, false, true⟩, ⟨false, false, false⟩] true =
      some [(⟨false, false, true⟩, false), (⟨false, false, false⟩, true)] :=
  ⟨by decide,
    (caught_error_skips_project_only [⟨false, false, true⟩, ⟨false, false, false⟩]
      (by decide)).trans (by decide)⟩
